import Mathlib

/-!
Verification of the mina-attestations protocol/DSL layer.

This file gives a shallow embedding, in Lean 4, of the parts of the
TypeScript source that the verified properties are about:

* the numeric comparison fragment of the Node/AST evaluator
  (`compareNodes` / `evalNode` in the program-spec module),
* the context binder (`src/context.ts`: `computeNonce`,
  `computeHttpsContext`, `computeZkAppContext`, `hashContext`,
  `serializeInputContext`, `deserializeHttpsContext`,
  `deserializeZkAppContext`),
* the presentation protocol of `src/index.ts` (`PresentationRequest.https`,
  `PresentationRequest.noContext`, `requestFromJson`, `toJSON`,
  `hashClaims`, `verifyPresentation`, `pickCredentials`),
* credential validation (`src/credential-index.ts`: `validateCredential`,
  `knownWitness`).

Hashes are modelled symbolically: the Poseidon-style hash of the backend is
collision resistant and domain separated, so a field element is represented
by the term structure of the hash calls that produced it.  External backend
capabilities (proof verification, compilation) are passed in as oracle
parameters.  Definitions that embed code follow the TypeScript line by
line; the few definitions that model code missing from the source tree are
marked `Modelled from the spec:` in their doc comment.
-/

/-- Symbolic model of the scalar field.  A field element is either a
literal, the domain-separated Poseidon hash of a list of field elements
(`Poseidon.hashWithPrefix`), the plain Poseidon hash of a list of concrete
field literals (`Poseidon.hash`), or the hash of a string
(`hashString` from the dynamic-hash library, which hashes in its own
domain).  Collision resistance of the backend hash is modelled by symbolic
terms being equal only when they are syntactically equal. -/
inductive F where
  | lit (n : Nat)
  | hashPrefixed (dom : String) (args : List F)
  | hashFields (args : List Nat)
  | hashOfString (s : String)

/-- Modelled from the spec: the fixed domain prefix of the nonce hash
(`prefixes.nonce` from `constants.ts`, which is not part of the source
tree; the spec gives the derivation `nonce = H("nonce", serverNonce,
clientNonce)`). -/
def prefixes.nonce : String := "nonce"

/-- Modelled from the spec: the fixed domain prefix of the context hash
(`prefixes.context` from `constants.ts`, which is not part of the source
tree; the spec gives the derivation `context = H("context", ...)`). -/
def prefixes.context : String := "context"

/-- Modelled from the spec: the fixed domain prefix of the zkApp verifier
identity hash (`prefixes.zkappIdentity` from `constants.ts`). -/
def prefixes.zkappIdentity : String := "zkapp-identity"

/-- The `hashString` helper of the dynamic-hash library: hashes a string in
its own domain, separate from all `hashWithPrefix` domains. -/
def hashString (s : String) : F := F.hashOfString s

/- ------------------------------------------------------------------ -/
/- Node/AST evaluator: numeric comparison fragment (program-spec)     -/
/- ------------------------------------------------------------------ -/

/-- A numeric operand value, tagged with its o1js class.  The classes of
the fixed order `numericTypeOrder = [UInt8, UInt32, UInt64, Field]` from
`compareNodes`.  All conversions applied by `compareNodes` are widening
and value preserving, so the payload is the numeric value. -/
inductive NumValue where
  | u8 (v : Nat)
  | u32 (v : Nat)
  | u64 (v : Nat)
  | fieldElt (v : Nat)
deriving DecidableEq, Repr

/-- The numeric value carried by an operand. -/
def NumValue.val : NumValue → Nat
  | .u8 v => v
  | .u32 v => v
  | .u64 v => v
  | .fieldElt v => v

/-- Index of the operand class in
`numericTypeOrder = [UInt8, UInt32, UInt64, Field]`
(the `findIndex` over `instanceof` checks in `compareNodes`). -/
def NumValue.tyIdx : NumValue → Nat
  | .u8 _ => 0
  | .u32 _ => 1
  | .u64 _ => 2
  | .fieldElt _ => 3

/-- The `leftConverted` computation of `compareNodes`: if the left operand
has the smaller type index it is widened to the type of the right operand
(`toField` if the right is a `Field`, `toUInt64` if the right is a
`UInt64`, otherwise `toUInt32`); otherwise it is left unconverted. -/
def convertLeft (left right : NumValue) : NumValue :=
  if left.tyIdx < right.tyIdx then
    match right with
    | .fieldElt _ => .fieldElt left.val
    | .u64 _ => .u64 left.val
    | _ => .u32 left.val
  else left

/-- The `rightConverted` computation of `compareNodes`, mirror image of
`convertLeft`. -/
def convertRight (left right : NumValue) : NumValue :=
  if left.tyIdx > right.tyIdx then
    match left with
    | .fieldElt _ => .fieldElt right.val
    | .u64 _ => .u64 right.val
    | _ => .u32 right.val
  else right

/-- `compareNodes` after both operands have been evaluated: convert the
narrower operand, then compare with `lessThanOrEqual` when `allowEqual`
and with `lessThan` otherwise.  The o1js comparisons on equal-class
operands compare the numeric values. -/
def compareValues (left right : NumValue) (allowEqual : Bool) : Bool :=
  let leftConverted := convertLeft left right
  let rightConverted := convertRight left right
  if allowEqual then leftConverted.val ≤ rightConverted.val
  else leftConverted.val < rightConverted.val

/-- Result of evaluating a node in the embedded fragment: a numeric value
or a boolean. -/
inductive NValue where
  | num (v : NumValue)
  | bool (b : Bool)
deriving DecidableEq, Repr

/-- The fragment of the `Node` expression tree that the verified claims
mention: constants, the numeric comparisons and boolean conjunction.
(The remaining kinds — `root`, `property`, `equals` — need the input
environment and are not used by any claim.) -/
inductive CNode where
  | constant (v : NValue)
  | lessThan (left right : CNode)
  | lessThanEq (left right : CNode)
  | and (left right : CNode)
deriving DecidableEq, Repr

/-- `evalNode` on the embedded fragment.  The `lessThan` and `lessThanEq`
cases dispatch to `compareNodes(root, node, node.type === 'lessThanEq')`
exactly as in the source; evaluation is undefined (`none`) when an operand
has the wrong runtime type, where the TypeScript would crash. -/
def evalNode : CNode → Option NValue
  | .constant v => some v
  | .lessThan l r =>
    match evalNode l, evalNode r with
    | some (.num a), some (.num b) => some (.bool (compareValues a b false))
    | _, _ => none
  | .lessThanEq l r =>
    match evalNode l, evalNode r with
    | some (.num a), some (.num b) => some (.bool (compareValues a b true))
    | _, _ => none
  | .and l r =>
    match evalNode l, evalNode r with
    | some (.bool a), some (.bool b) => some (.bool (a && b))
    | _, _ => none

/- ------------------------------------------------------------------ -/
/- Context binder (src/context.ts)                                    -/
/- ------------------------------------------------------------------ -/

/-- Network identifier of a zkApp verifier. -/
inductive NetworkId where
  | mainnet
  | devnet
  | custom (s : String)
deriving DecidableEq, Repr

/-- Identity of a zkApp verifier: public key, token id and network. -/
structure ZkAppIdentity where
  publicKey : Nat
  tokenId : F
  network : NetworkId

/-- The server-side input context of a presentation request
(`undefined | HttpsInputContext | ZkAppInputContext`). -/
inductive InputContext where
  | none
  | https (action : String) (serverNonce : F)
  | zkApp (action : String) (serverNonce : F) (verifierIdentity : ZkAppIdentity)

/-- The wallet-side context (`HttpsWalletContext` for https requests,
`undefined` otherwise). -/
inductive WalletContext where
  | none
  | https (verifierIdentity : String)

/-- Context pieces derived on the client (`WalletDerivedContext`). -/
structure WalletDerivedContext where
  vkHash : F
  claims : F
  clientNonce : F

/-- The combined https context record (`HttpsContext`), fed into
`computeHttpsContext`. -/
structure HttpsContext where
  ctype : String
  action : String
  serverNonce : F
  verifierIdentity : String
  vkHash : F
  claims : F
  clientNonce : F

/-- The combined zk-app context record (`ZkAppContext`). -/
structure ZkAppContext where
  ctype : String
  action : String
  serverNonce : F
  verifierIdentity : ZkAppIdentity
  vkHash : F
  claims : F
  clientNonce : F

/-- The intermediate record produced by `computeHttpsContext` and
`computeZkAppContext` (`ContextOutput`). -/
structure ContextOutput where
  ctype : String
  vkHash : F
  nonce : F
  verifierIdentity : F
  action : F
  claims : F

/-- `computeNonce`: `Poseidon.hashWithPrefix(prefixes.nonce, [serverNonce,
clientNonce])`. -/
def computeNonce (serverNonce clientNonce : F) : F :=
  F.hashPrefixed prefixes.nonce [serverNonce, clientNonce]

/-- `networkToField`: mainnet is 0, devnet is 1, a custom network is the
hash of its name. -/
def networkToField : NetworkId → F
  | .mainnet => F.lit 0
  | .devnet => F.lit 1
  | .custom s => hashString s

/-- `hashZkAppIdentity`: domain-separated hash of network, public key
fields and token id. -/
def hashZkAppIdentity (identity : ZkAppIdentity) : F :=
  F.hashPrefixed prefixes.zkappIdentity
    [networkToField identity.network, F.lit identity.publicKey, identity.tokenId]

/-- `computeHttpsContext` from `src/context.ts`. -/
def computeHttpsContext (input : HttpsContext) : ContextOutput :=
  { ctype := input.ctype
    vkHash := input.vkHash
    nonce := computeNonce input.serverNonce input.clientNonce
    verifierIdentity := hashString input.verifierIdentity
    action := hashString input.action
    claims := input.claims }

/-- `computeZkAppContext` from `src/context.ts`. -/
def computeZkAppContext (input : ZkAppContext) : ContextOutput :=
  { ctype := input.ctype
    vkHash := input.vkHash
    nonce := computeNonce input.serverNonce input.clientNonce
    verifierIdentity := hashZkAppIdentity input.verifierIdentity
    action := hashString input.action
    claims := input.claims }

/-- `hashContext` from `src/context.ts`: the final context commitment
`Poseidon.hashWithPrefix(prefixes.context, [hashString(type), vkHash,
nonce, verifierIdentity, action, claims])`. -/
def hashContext (input : ContextOutput) : F :=
  F.hashPrefixed prefixes.context
    [hashString input.ctype, input.vkHash, input.nonce,
     input.verifierIdentity, input.action, input.claims]

/- ------------------------------------------------------------------ -/
/- Spec, claims and presentation requests (src/index.ts)              -/
/- ------------------------------------------------------------------ -/

/-- A named input of a spec: a credential spec (identified by an opaque
structural id used by `credentialMatchesSpec`), a constant, or a claim.
-/
inductive InputKind where
  | credential (sid : Nat)
  | constant (value : List Nat)
  | claim
deriving DecidableEq, Repr

/-- A program spec: named inputs in declaration order plus the logic
(`assert` node and `outputClaim` node). -/
structure Spec where
  inputs : List (String × InputKind)
  assertNode : CNode
  outputClaim : CNode
deriving DecidableEq, Repr

/-- Concrete claim values of a request, as their canonical field encoding
(`Struct(claimsType).toFields`): each claim name with the field literals
of its value. -/
def Claims : Type := List (String × List Nat)

instance : DecidableEq Claims := by
  unfold Claims
  infer_instance

/-- The canonical field encoding of all claims, in order. -/
def claimsToFields (claims : Claims) : List Nat :=
  claims.flatMap Prod.snd

/-- `hashClaims` from `src/index.ts`:
`Poseidon.hash(Struct(claimsType).toFields(claims))`. -/
def hashClaims (claims : Claims) : F :=
  F.hashFields (claimsToFields claims)

/-- A presentation request (`PresentationRequest`): type tag, spec, claim
values, server-side input context and the context-derivation function. -/
structure Request where
  rtype : String
  spec : Spec
  claims : Claims
  inputContext : InputContext
  deriveContext : InputContext → WalletContext → WalletDerivedContext → F

/-- The `HttpsRequest` constructor of `src/index.ts`: type `https` and the
`deriveContext` that spreads input context, wallet context and derived
context into `computeHttpsContext` and hashes the result.  (On context
variants that cannot arise for an https request — where the TypeScript
spread would produce an ill-typed record — the model returns 0.) -/
def HttpsRequest (spec : Spec) (claims : Claims) (inputContext : InputContext) :
    Request where
  rtype := "https"
  spec := spec
  claims := claims
  inputContext := inputContext
  deriveContext := fun ic wc dc =>
    match ic, wc with
    | .https action serverNonce, .https verifierIdentity =>
      hashContext (computeHttpsContext
        { ctype := "https", action := action, serverNonce := serverNonce
          verifierIdentity := verifierIdentity
          vkHash := dc.vkHash, claims := dc.claims, clientNonce := dc.clientNonce })
    | _, _ => F.lit 0

/-- The `ZkAppRequest` constructor of `src/index.ts` (the wallet context
argument of its `deriveContext` is unused). -/
def ZkAppRequest (spec : Spec) (claims : Claims) (inputContext : InputContext) :
    Request where
  rtype := "zk-app"
  spec := spec
  claims := claims
  inputContext := inputContext
  deriveContext := fun ic _wc dc =>
    match ic with
    | .zkApp action serverNonce verifierIdentity =>
      hashContext (computeZkAppContext
        { ctype := "zk-app", action := action, serverNonce := serverNonce
          verifierIdentity := verifierIdentity
          vkHash := dc.vkHash, claims := dc.claims, clientNonce := dc.clientNonce })
    | _ => F.lit 0

/-- `PresentationRequest.https`: binds spec and claims to an https input
context.  The fresh `serverNonce` is drawn by the caller (`Field.random()`
on the server) and passed in here. -/
def PresentationRequest.https (spec : Spec) (claims : Claims) (action : String)
    (serverNonce : F) : Request :=
  HttpsRequest spec claims (.https action serverNonce)

/-- `PresentationRequest.noContext`: no input context, and `deriveContext`
is the constant function `() => Field(0)`. -/
def PresentationRequest.noContext (spec : Spec) (claims : Claims) : Request where
  rtype := "no-context"
  spec := spec
  claims := claims
  inputContext := .none
  deriveContext := fun _ _ _ => F.lit 0

/- ------------------------------------------------------------------ -/
/- pickCredentials (src/index.ts)                                     -/
/- ------------------------------------------------------------------ -/

/-- A supplied stored credential, reduced to what `pickCredentials`
inspects: the optional key tag attached by the caller, and an opaque
identifier standing for the credential content (witness, owner, data).
`credentialMatchesSpec` is passed in as an abstract predicate relating a
credential spec id to a credential. -/
structure Cred where
  key : Option String
  id : Nat
deriving DecidableEq, Repr

/-- The default used to model the non-null assertion
`credentialsUsed[key]!`; never reached on the success path. -/
def defaultCred : Cred := { key := none, id := 0 }

/-- `findIndex` followed by reading and splicing out the found element:
returns the first element satisfying the predicate together with the list
with that element removed (`credentials[i]` and `credentials.splice(i, 1)`
in the source). -/
def extractFirst {α : Type} (p : α → Bool) : List α → Option (α × List α)
  | [] => none
  | a :: as =>
    if p a then some (a, as)
    else (extractFirst p as).map fun x => (x.1, a :: x.2)

/-- `credentialsNeeded`: the named inputs of the spec that are credential
specs, in declaration order (`Object.entries(spec.inputs).filter(
isCredentialSpec)`). -/
def credentialsNeeded (spec : Spec) : List (String × Nat) :=
  spec.inputs.filterMap fun kv =>
    match kv.2 with
    | .credential sid => some (kv.1, sid)
    | _ => none

/-- The first loop of `pickCredentials`: for each needed input in
declaration order, look for a supplied credential carrying that input
name as its key; assign and splice it out if found, otherwise record the
input as still needed.  Returns (assignments, inputs still needed,
remaining credentials). -/
def keyedPass : List (String × Nat) → List Cred →
    List (String × Cred) × List (String × Nat) × List Cred
  | [], creds => ([], [], creds)
  | (key, sid) :: rest, creds =>
    match extractFirst (fun c => c.key = some key) creds with
    | none =>
      let out := keyedPass rest creds
      (out.1, (key, sid) :: out.2.1, out.2.2)
    | some (c, creds') =>
      let out := keyedPass rest creds'
      ((key, c) :: out.1, out.2.1, out.2.2)

/-- The second loop of `pickCredentials`: walk the remaining credentials
in array order; for each, find the first still-needed input it matches
(`credentialsStillNeeded.findIndex`), assign it there and splice the slot
out; stop as soon as no input is still needed.  Returns (assignments,
inputs still needed). -/
def codePass2 (credMatches : Nat → Cred → Bool) :
    List Cred → List (String × Nat) → List (String × Cred) × List (String × Nat)
  | [], still => ([], still)
  | _ :: _, [] => ([], [])
  | c :: creds, kv :: rest =>
    match extractFirst (fun slot => credMatches slot.2 c) (kv :: rest) with
    | none => codePass2 credMatches creds (kv :: rest)
    | some (slot, still') =>
      let out := codePass2 credMatches creds still'
      ((slot.1, c) :: out.1, out.2)

/-- Input-major greedy assignment, as the spec describes pass two: for
each still-needed input in declaration order, take the first remaining
credential that matches it.  Returns (assignments, inputs still
needed). -/
def inputMajor (credMatches : Nat → Cred → Bool) :
    List (String × Nat) → List Cred → List (String × Cred) × List (String × Nat)
  | [], _ => ([], [])
  | kv :: rest, creds =>
    match extractFirst (fun c => credMatches kv.2 c) creds with
    | none =>
      let out := inputMajor credMatches rest creds
      (out.1, kv :: out.2)
    | some (c, creds') =>
      let out := inputMajor credMatches rest creds'
      ((kv.1, c) :: out.1, out.2)

/-- First-match lookup in an association list (a JS object read
`credentialsUsed[key]`). -/
def lookupKey (key : String) : List (String × Cred) → Option Cred
  | [] => none
  | kv :: rest => if kv.1 = key then some kv.2 else lookupKey key rest

/-- `pickCredentials` from `src/index.ts`: keyed pass, then the
credential-major pass over the remaining credentials, then either the
missing-credentials error naming every still-needed input, or the
assignments read back in input declaration order (this is the order the
source uses to build `credentialsAndSpecs`). -/
def pickCredentials (credMatches : Nat → Cred → Bool) (spec : Spec)
    (credentials : List Cred) : Except (List String) (List (String × Cred)) :=
  let needed := credentialsNeeded spec
  let p1 := keyedPass needed credentials
  let p2 := codePass2 credMatches p1.2.2 p1.2.1
  if p2.2 = [] then
    .ok (needed.map fun kv => (kv.1, (lookupKey kv.1 (p1.1 ++ p2.1)).getD defaultCred))
  else
    .error (p2.2.map Prod.fst)

/-- The algorithm exactly as the claim words it: after the keyed pass,
each still-unresolved input, in declaration order, scans only the
remaining unkeyed credentials in array order.  (Second, spec-side
definition, for comparison with `pickCredentials`.) -/
def claimDescribedPick (credMatches : Nat → Cred → Bool) (spec : Spec)
    (credentials : List Cred) : Except (List String) (List (String × Cred)) :=
  let needed := credentialsNeeded spec
  let p1 := keyedPass needed credentials
  let unkeyed := p1.2.2.filter fun c => c.key = none
  let p2 := inputMajor credMatches p1.2.1 unkeyed
  if p2.2 = [] then
    .ok (needed.map fun kv => (kv.1, (lookupKey kv.1 (p1.1 ++ p2.1)).getD defaultCred))
  else
    .error (p2.2.map Prod.fst)

/-- The claim amended: the still-unresolved inputs scan, input-major, all
remaining credentials (keyed credentials whose key matched no input
included), in array order. -/
def inputMajorPick (credMatches : Nat → Cred → Bool) (spec : Spec)
    (credentials : List Cred) : Except (List String) (List (String × Cred)) :=
  let needed := credentialsNeeded spec
  let p1 := keyedPass needed credentials
  let p2 := inputMajor credMatches p1.2.1 p1.2.2
  if p2.2 = [] then
    .ok (needed.map fun kv => (kv.1, (lookupKey kv.1 (p1.1 ++ p2.1)).getD defaultCred))
  else
    .error (p2.2.map Prod.fst)

/-- Decidable equality of results, used to evaluate the embedding on
concrete inputs. -/
instance {e a : Type} [DecidableEq e] [DecidableEq a] : DecidableEq (Except e a) := fun x y =>
  match x, y with
  | .error u, .error v =>
    if h : u = v then .isTrue (by rw [h]) else .isFalse (by simp [h])
  | .error _, .ok _ => .isFalse (by simp)
  | .ok _, .error _ => .isFalse (by simp)
  | .ok u, .ok v =>
    if h : u = v then .isTrue (by rw [h]) else .isFalse (by simp [h])

/-- All assignments made by `pickCredentials` (keyed pass then unkeyed
pass), as one association list; an input is missing exactly when it has no
entry here. -/
def assignedCredentials (cm : Nat → Cred → Bool) (spec : Spec) (creds : List Cred) :
    List (String × Cred) :=
  (keyedPass (credentialsNeeded spec) creds).1
    ++ (codePass2 cm (keyedPass (credentialsNeeded spec) creds).2.2
          (keyedPass (credentialsNeeded spec) creds).2.1).1

/-- `pickCredentials` at the JavaScript mutation level.  The store is the
heap of live arrays; the caller passes its array by index.  The source
header `[...credentials]` copies the array, so the function allocates a
fresh slot holding a copy, and all `splice` mutations (of the keyed pass)
land on the copy. -/
def pickCredentialsStore (cm : Nat → Cred → Bool) (spec : Spec)
    (store : List (List Cred)) (argIdx : Nat) :
    Except (List String) (List (String × Cred)) × List (List Cred) :=
  let arg := store.getD argIdx []
  let finalCopy := (keyedPass (credentialsNeeded spec) arg).2.2
  (pickCredentials cm spec arg, (store ++ [arg]).set store.length finalCopy)

/-- The opaque proof blob of a presentation. -/
structure ProofBlob where
  proofB64 : String
  maxProofsVerified : Nat
deriving DecidableEq, Repr

/-- A presentation (`Presentation` in `src/index.ts`), with the output
claim kept as its canonical field encoding. -/
structure Presentation where
  version : String
  claims : Claims
  outputClaim : List Nat
  serverNonce : F
  clientNonce : F
  proof : ProofBlob

/-- A backend verification key: opaque data plus its hash. -/
structure VerificationKey where
  data : String
  hash : F

/-- The proof object reconstructed by `verifyPresentation` and handed to
the backend `verify`: public input (context and claims), public output,
and the opaque proof. -/
structure JsonProof where
  publicInputContext : F
  publicInputClaims : Claims
  publicOutput : List Nat
  proofB64 : String
  maxProofsVerified : Nat

/-- The two failure modes of `verifyPresentation`: the claims equality
assertion (`InvalidClaimsError`) and the proof check
(`InvalidProofError`). -/
inductive VerifyError where
  | invalidClaims
  | invalidProof
deriving DecidableEq, Repr

/-- The proof object `verifyPresentation` reconstructs: public input is
the rederived context (from `request.deriveContext` with the presentation
client nonce, the verification key hash and the claims hash) together
with the request claims; public output is the claimed output. -/
def reconstructedProof (verificationKey : VerificationKey) (request : Request)
    (presentation : Presentation) (walletContext : WalletContext) : JsonProof :=
  { publicInputContext :=
      request.deriveContext request.inputContext walletContext
        { vkHash := verificationKey.hash, claims := hashClaims request.claims
          clientNonce := presentation.clientNonce }
    publicInputClaims := request.claims
    publicOutput := presentation.outputClaim
    proofB64 := presentation.proof.proofB64
    maxProofsVerified := presentation.proof.maxProofsVerified }

/-- `verifyPresentation` from `src/index.ts`: rederive the context,
assert the presentation claims equal the request claims, reconstruct the
proof object and check it with the backend `verify` (passed in as the
oracle `verifyProof`); return the output claim only when both checks
pass.  Compilation is the opaque backend, so the verification key is a
parameter. -/
def verifyPresentation (verifyProof : JsonProof → VerificationKey → Bool)
    (verificationKey : VerificationKey) (request : Request)
    (presentation : Presentation) (walletContext : WalletContext) :
    Except VerifyError (List Nat) :=
  if presentation.claims = request.claims then
    if verifyProof (reconstructedProof verificationKey request presentation walletContext)
        verificationKey then
      .ok presentation.outputClaim
    else .error .invalidProof
  else .error .invalidClaims

/-- A credential witness as `validateCredential` inspects it: only the
variant tag matters for dispatch (the native and imported payloads are
consumed by the spec verification, modelled as an oracle). -/
structure Witness where
  wtype : String
deriving DecidableEq, Repr

/-- The credential body: owner public key and attribute data (as its
field encoding). -/
structure CredentialData where
  owner : Nat
  data : List Nat
deriving DecidableEq, Repr

/-- A stored credential: version, variant-tagged witness and the
credential body.  Unsigned credentials carry no witness:
`Credential.toJSON` in `src/credential-index.ts` serializes
`witness === undefined` as the unsigned variant. -/
structure StoredCredential where
  version : String
  witness : Option Witness
  credential : CredentialData
deriving DecidableEq, Repr

/-- Modelled from the spec: `hashCredential` from `credential.ts` (not in
the source tree) — the packed hash of owner and data. -/
def hashCredential (c : CredentialData) : F :=
  F.hashFields (c.owner :: c.data)

/-- The witness types `validateCredential` accepts
(`src/credential-index.ts`); the unsigned variant is not among them. -/
def witnessTypes : List String := ["native", "imported"]

/-- `knownWitness` from `src/credential-index.ts`: the witness has a
type property and it is in `witnessTypes` — false on the absent witness
of an unsigned credential. -/
def knownWitness : Option Witness → Bool
  | Option.none => false
  | Option.some w => witnessTypes.contains w.wtype

/-- Modelled from the spec: the fixed dummy owner of unsigned
credentials. -/
def dummyOwner : Nat := 0

/-- Modelled from the spec: `createUnsigned` from `credential.ts` (not in
the source tree) — an unsigned credential has version v0, no witness and
the dummy owner (the in-source `Credential.toJSON` discriminates the
unsigned variant by `witness === undefined`). -/
def createUnsigned (data : List Nat) : StoredCredential :=
  { version := "v0"
    witness := Option.none
    credential := { owner := dummyOwner, data := data } }

/-- `validateCredential` from `src/credential-index.ts`: assert version
v0, assert the witness type is known, then run the credential spec
authenticity check (`verifyOutsideCircuit`, an oracle because the
native/imported spec implementations live in `credential.ts`, outside
the source tree) on the witness and credential hash. -/
def validateCredential (verifyOutsideCircuit : Witness → F → Except String Unit)
    (credential : StoredCredential) : Except String Unit :=
  if credential.version = "v0" then
    if knownWitness credential.witness then
      match credential.witness with
      | Option.some w => verifyOutsideCircuit w (hashCredential credential.credential)
      | Option.none => .error "Unknown credential type"
    else .error "Unknown credential type"
  else .error ("Unsupported credential version: " ++ credential.version)

/-- Payload of a serialized scalar value. -/
inductive SerializedPayload where
  | fieldV (f : F)
  | publicKeyV (pk : Nat)

/-- Modelled from the spec: the tagged envelope of every serialized
scalar value. -/
structure SerializedValue where
  ty : String
  value : SerializedPayload

/-- Modelled from the spec: `serializeProvable` on a field element
(`serialize-provable.ts` is not in the source tree). -/
def serializeProvableField (f : F) : SerializedValue :=
  { ty := "Field", value := .fieldV f }

/-- Modelled from the spec: `serializeProvable` on a public key. -/
def serializeProvablePublicKey (pk : Nat) : SerializedValue :=
  { ty := "PublicKey", value := .publicKeyV pk }

/-- Modelled from the spec: `deserializeProvable` on a field envelope;
an unknown tag is rejected, never coerced. -/
def deserializeProvableField : SerializedValue → Option F
  | { ty := "Field", value := .fieldV f } => some f
  | _ => none

/-- Modelled from the spec: `deserializeProvable` on a public key
envelope. -/
def deserializeProvablePublicKey : SerializedValue → Option Nat
  | { ty := "PublicKey", value := .publicKeyV pk } => some pk
  | _ => none

/-- The serialized input context (`SerializedContext` in
`src/context.ts`): null, or the https or zk-app records. -/
inductive SerializedContext where
  | null
  | https (serverNonce : SerializedValue) (action : String)
  | zkApp (serverNonce : SerializedValue) (action : String)
      (publicKey : SerializedValue) (tokenId : SerializedValue) (network : NetworkId)

/-- `serializeInputContext` from `src/context.ts`. -/
def serializeInputContext : InputContext → SerializedContext
  | .none => .null
  | .https action serverNonce =>
    .https (serializeProvableField serverNonce) action
  | .zkApp action serverNonce verifierIdentity =>
    .zkApp (serializeProvableField serverNonce) action
      (serializeProvablePublicKey verifierIdentity.publicKey)
      (serializeProvableField verifierIdentity.tokenId)
      verifierIdentity.network

/-- `deserializeHttpsContext` from `src/context.ts`; asserts the
serialized context is an https context. -/
def deserializeHttpsContext : SerializedContext → Option InputContext
  | .https serverNonce action =>
    (deserializeProvableField serverNonce).map fun f => .https action f
  | _ => none

/-- `deserializeZkAppContext` from `src/context.ts`; asserts the
serialized context is a zk-app context. -/
def deserializeZkAppContext : SerializedContext → Option InputContext
  | .zkApp serverNonce action publicKey tokenId network => do
    let sn ← deserializeProvableField serverNonce
    let pk ← deserializeProvablePublicKey publicKey
    let tid ← deserializeProvableField tokenId
    some (.zkApp action sn { publicKey := pk, tokenId := tid, network := network })
  | _ => none

/-- Modelled from the spec: `NodeJSON` — every node kind discriminated
by a type tag, recursively (for the embedded node fragment). -/
inductive NodeJSON where
  | constant (v : NValue)
  | binary (ty : String) (left right : NodeJSON)

/-- Modelled from the spec: node serialization from `serialize-spec.ts`
(not in the source tree). -/
def serializeNode : CNode → NodeJSON
  | .constant v => .constant v
  | .lessThan l r => .binary "lessThan" (serializeNode l) (serializeNode r)
  | .lessThanEq l r => .binary "lessThanEq" (serializeNode l) (serializeNode r)
  | .and l r => .binary "and" (serializeNode l) (serializeNode r)

/-- Modelled from the spec: node deserialization; unknown type tags are
rejected. -/
def deserializeNode : NodeJSON → Option CNode
  | .constant v => some (.constant v)
  | .binary ty l r => do
    let left ← deserializeNode l
    let right ← deserializeNode r
    match ty with
    | "lessThan" => some (.lessThan left right)
    | "lessThanEq" => some (.lessThanEq left right)
    | "and" => some (.and left right)
    | _ => none

/-- Modelled from the spec: input serialization — inputs discriminate
credential, constant and claim. -/
def serializeInput : InputKind → String × List Nat
  | .credential sid => ("credential", [sid])
  | .constant v => ("constant", v)
  | .claim => ("claim", [])

/-- Modelled from the spec: input deserialization. -/
def deserializeInput : String × List Nat → Option InputKind
  | ("credential", [sid]) => some (.credential sid)
  | ("constant", v) => some (.constant v)
  | ("claim", []) => some .claim
  | _ => none

/-- Modelled from the spec: the spec wire format — inputs plus the
logic nodes. -/
structure SpecJSON where
  inputs : List (String × (String × List Nat))
  assertNode : NodeJSON
  outputClaim : NodeJSON

/-- Modelled from the spec: `serializeSpec` from `serialize-spec.ts`
(not in the source tree). -/
def serializeSpec (spec : Spec) : SpecJSON :=
  { inputs := spec.inputs.map fun kv => (kv.1, serializeInput kv.2)
    assertNode := serializeNode spec.assertNode
    outputClaim := serializeNode spec.outputClaim }

/-- Modelled from the spec: `deserializeSpec`. -/
def deserializeSpec (json : SpecJSON) : Option Spec := do
  let inputs ← json.inputs.mapM fun kv =>
    (deserializeInput kv.2).map fun input => (kv.1, input)
  let assertNode ← deserializeNode json.assertNode
  let outputClaim ← deserializeNode json.outputClaim
  some { inputs := inputs, assertNode := assertNode, outputClaim := outputClaim }

/-- Modelled from the spec: `serializeSimplyNestedProvableValue` on the
claims record (`serialize-provable.ts` is not in the source tree). -/
def serializeClaims (claims : Claims) : List (String × (String × List Nat)) :=
  claims.map fun kv => (kv.1, ("Fields", kv.2))

/-- Modelled from the spec: `deserializeNestedProvableValue` on the
claims record. -/
def deserializeClaims (json : List (String × (String × List Nat))) : Option Claims :=
  json.mapM fun kv =>
    match kv.2 with
    | ("Fields", v) => some ((kv.1, v) : String × List Nat)
    | _ => none

/-- The wire format of a presentation request. -/
structure RequestJSON where
  rtype : String
  spec : SpecJSON
  claims : List (String × (String × List Nat))
  inputContext : SerializedContext

/-- `PresentationRequest.toJSON` from `src/index.ts` (up to the final
JSON stringify): serialize type, spec, claims and input context. -/
def requestToJSON (request : Request) : RequestJSON :=
  { rtype := request.rtype
    spec := serializeSpec request.spec
    claims := serializeClaims request.claims
    inputContext := serializeInputContext request.inputContext }

/-- `requestFromJson` from `src/index.ts`: deserialize spec and claims,
then dispatch on the request type, deserializing the matching input
context; an invalid request type is an error. -/
def requestFromJson (json : RequestJSON) : Option Request := do
  let spec ← deserializeSpec json.spec
  let claims ← deserializeClaims json.claims
  match json.rtype with
  | "no-context" => some (PresentationRequest.noContext spec claims)
  | "zk-app" =>
    (deserializeZkAppContext json.inputContext).map fun ic => ZkAppRequest spec claims ic
  | "https" =>
    (deserializeHttpsContext json.inputContext).map fun ic => HttpsRequest spec claims ic
  | _ => none

/- ------------------------------------------------------------------ -/
/- Concrete fixtures used to evaluate the embedding                   -/
/- ------------------------------------------------------------------ -/

/-- Matcher accepting every credential. -/
def matchAll : Nat → Cred → Bool := fun _ _ => true

/-- Matcher accepting only the credential with content id 2. -/
def matchSecond : Nat → Cred → Bool := fun _ c => c.id == 2

/-- A trivial logic node. -/
def exNode : CNode := .constant (.bool true)

/-- Example spec with one credential input named `a`. -/
def exSpecOne : Spec :=
  { inputs := [("a", .credential 0)], assertNode := exNode, outputClaim := exNode }

/-- Example spec with credential inputs `a` and `b`. -/
def exSpecTwo : Spec :=
  { inputs := [("a", .credential 0), ("b", .credential 0)]
    assertNode := exNode, outputClaim := exNode }

/-- Example claims. -/
def exClaimsOne : Claims := [("x", [1])]

/-- Example claims differing from `exClaimsOne`. -/
def exClaimsTwo : Claims := [("x", [2])]

/- ------------------------------------------------------------------ -/
/- Theorems                                                           -/
/- ------------------------------------------------------------------ -/

theorem extractFirst_eq_none {α : Type} {p : α → Bool} {l : List α} :
    extractFirst p l = none ↔ ∀ a ∈ l, p a = false := by
  induction l with
  | nil => simp [extractFirst]
  | cons a as ih =>
    by_cases h : p a
    · simp [extractFirst, h]
    · rw [extractFirst, if_neg h]
      constructor
      · intro hmap b hb
        rcases List.mem_cons.mp hb with hb | hb
        · subst hb; simpa using h
        · have : extractFirst p as = none := by
            cases hx : extractFirst p as with
            | none => rfl
            | some x => rw [hx] at hmap; simp at hmap
          exact (ih.mp this) b hb
      · intro hall
        have : extractFirst p as = none :=
          ih.mpr fun b hb => hall b (List.mem_cons_of_mem a hb)
        rw [this]
        rfl

theorem extractFirst_eq_some {α : Type} {p : α → Bool} {l : List α} {a : α} {l' : List α}
    (h : extractFirst p l = some (a, l')) :
    ∃ pre post, l = pre ++ a :: post ∧ l' = pre ++ post
      ∧ (∀ x ∈ pre, p x = false) ∧ p a = true := by
  induction l generalizing a l' with
  | nil => simp [extractFirst] at h
  | cons b bs ih =>
    by_cases hb : p b
    · rw [extractFirst, if_pos hb] at h
      obtain ⟨rfl, rfl⟩ := by simpa using h
      exact ⟨[], bs, rfl, rfl, by simp, hb⟩
    · rw [extractFirst, if_neg hb] at h
      match hx : extractFirst p bs with
      | none => rw [hx] at h; simp at h
      | some (c, cs) =>
        rw [hx] at h
        obtain ⟨rfl, rfl⟩ := by simpa using h
        obtain ⟨pre, post, rfl, rfl, hpre, hc⟩ := ih hx
        refine ⟨b :: pre, post, rfl, rfl, ?_, hc⟩
        intro x hmem
        rcases List.mem_cons.mp hmem with hmem | hmem
        · subst hmem; simpa using hb
        · exact hpre x hmem

theorem codePass2_nil_still (cm : Nat → Cred → Bool) (creds : List Cred) :
    codePass2 cm creds [] = ([], []) := by
  cases creds <;> rfl

theorem codePass2_cons_none (cm : Nat → Cred → Bool) (c : Cred) (creds : List Cred)
    (still : List (String × Nat)) (hne : still ≠ [])
    (hx : extractFirst (fun slot => cm slot.2 c) still = none) :
    codePass2 cm (c :: creds) still = codePass2 cm creds still := by
  cases still with
  | nil => exact absurd rfl hne
  | cons kv rest => rw [codePass2, hx]

theorem codePass2_cons_some (cm : Nat → Cred → Bool) (c : Cred) (creds : List Cred)
    (still : List (String × Nat)) (slot : String × Nat) (still' : List (String × Nat))
    (hx : extractFirst (fun s => cm s.2 c) still = some (slot, still')) :
    codePass2 cm (c :: creds) still
      = ((slot.1, c) :: (codePass2 cm creds still').1, (codePass2 cm creds still').2) := by
  cases still with
  | nil => simp [extractFirst] at hx
  | cons kv rest => rw [codePass2, hx]

theorem extractFirst_cons_false {α : Type} {p : α → Bool} {a : α} (l : List α)
    (ha : p a = false) :
    extractFirst p (a :: l) = (extractFirst p l).map fun x => (x.1, a :: x.2) := by
  rw [extractFirst, if_neg (by simp [ha])]

theorem codePass2_skip_head (cm : Nat → Cred → Bool) (k : String) (sid : Nat)
    (creds : List Cred) (hnone : ∀ c ∈ creds, cm sid c = false) (rest : List (String × Nat)) :
    codePass2 cm creds ((k, sid) :: rest)
      = ((codePass2 cm creds rest).1, (k, sid) :: (codePass2 cm creds rest).2) := by
  induction creds generalizing rest with
  | nil => simp [codePass2]
  | cons c creds ih =>
    have hc : cm sid c = false := hnone c (List.mem_cons_self c creds)
    have hnone' : ∀ x ∈ creds, cm sid x = false :=
      fun x hx => hnone x (List.mem_cons_of_mem c hx)
    have hcons : extractFirst (fun s => cm s.2 c) ((k, sid) :: rest)
        = (extractFirst (fun s => cm s.2 c) rest).map fun x => (x.1, (k, sid) :: x.2) :=
      extractFirst_cons_false rest hc
    cases hx : extractFirst (fun s => cm s.2 c) rest with
    | none =>
      rw [hx] at hcons
      rw [codePass2_cons_none cm c creds ((k, sid) :: rest) (by simp) (by simpa using hcons)]
      rw [ih hnone' rest]
      cases rest with
      | nil => rw [codePass2_nil_still, codePass2_nil_still]
      | cons kv rest' =>
        rw [codePass2_cons_none cm c creds (kv :: rest') (by simp) hx]
    | some x =>
      obtain ⟨slot, rest'⟩ := x
      rw [hx] at hcons
      rw [codePass2_cons_some cm c creds ((k, sid) :: rest) slot ((k, sid) :: rest')
        (by simpa using hcons)]
      rw [codePass2_cons_some cm c creds rest slot rest' hx]
      rw [ih hnone' rest']

theorem codePass2_cons_skip (cm : Nat → Cred → Bool) (c : Cred) (creds : List Cred)
    (still : List (String × Nat))
    (hx : extractFirst (fun s => cm s.2 c) still = none) :
    codePass2 cm (c :: creds) still = codePass2 cm creds still := by
  cases still with
  | nil => rw [codePass2_nil_still, codePass2_nil_still]
  | cons kv rest => rw [codePass2, hx]

theorem codePass2_assign_head (cm : Nat → Cred → Bool) (k : String) (sid : Nat)
    (cstar : Cred) (hc : cm sid cstar = true) :
    ∀ (pre : List Cred), (∀ c ∈ pre, cm sid c = false) →
    ∀ (post : List Cred) (rest : List (String × Nat)), k ∉ rest.map Prod.fst →
    (∀ key, lookupKey key (codePass2 cm (pre ++ cstar :: post) ((k, sid) :: rest)).1
       = if k = key then some cstar
         else lookupKey key (codePass2 cm (pre ++ post) rest).1)
    ∧ (codePass2 cm (pre ++ cstar :: post) ((k, sid) :: rest)).2
       = (codePass2 cm (pre ++ post) rest).2 := by
  intro pre
  induction pre with
  | nil =>
    intro _ post rest _
    have hx : extractFirst (fun s => cm s.2 cstar) ((k, sid) :: rest)
        = some ((k, sid), rest) := by
      rw [extractFirst, if_pos (by simpa using hc)]
    rw [List.nil_append, List.nil_append,
      codePass2_cons_some cm cstar post ((k, sid) :: rest) (k, sid) rest hx]
    refine ⟨?_, rfl⟩
    intro key
    rw [lookupKey]
  | cons c pre ih =>
    intro hpre post rest hk
    have hc2 : cm sid c = false := hpre c (List.mem_cons_self c pre)
    have hpre' : ∀ x ∈ pre, cm sid x = false :=
      fun x hx => hpre x (List.mem_cons_of_mem c hx)
    have hcons : extractFirst (fun s => cm s.2 c) ((k, sid) :: rest)
        = (extractFirst (fun s => cm s.2 c) rest).map fun x => (x.1, (k, sid) :: x.2) :=
      extractFirst_cons_false rest hc2
    cases hx : extractFirst (fun s => cm s.2 c) rest with
    | none =>
      rw [hx] at hcons
      rw [List.cons_append,
        codePass2_cons_skip cm c (pre ++ cstar :: post) ((k, sid) :: rest)
          (by simpa using hcons),
        List.cons_append,
        codePass2_cons_skip cm c (pre ++ post) rest hx]
      exact ih hpre' post rest hk
    | some x =>
      obtain ⟨slot, rest2⟩ := x
      rw [hx] at hcons
      obtain ⟨pre2, post2, hrest, hrest2, _, _⟩ := extractFirst_eq_some hx
      have hslot : slot.1 ≠ k := by
        intro hcontra
        apply hk
        rw [hrest, List.map_append, List.map_cons]
        exact List.mem_append.mpr (Or.inr (by rw [← hcontra]; exact List.mem_cons_self _ _))
      have hk2 : k ∉ rest2.map Prod.fst := by
        intro hcontra
        apply hk
        rw [hrest2, List.map_append] at hcontra
        rw [hrest, List.map_append, List.map_cons]
        rcases List.mem_append.mp hcontra with h | h
        · exact List.mem_append.mpr (Or.inl h)
        · exact List.mem_append.mpr (Or.inr (List.mem_cons_of_mem _ h))
      rw [List.cons_append,
        codePass2_cons_some cm c (pre ++ cstar :: post) ((k, sid) :: rest) slot
          ((k, sid) :: rest2) (by simpa using hcons),
        List.cons_append,
        codePass2_cons_some cm c (pre ++ post) rest slot rest2 hx]
      obtain ⟨ihl, ihs⟩ := ih hpre' post rest2 hk2
      refine ⟨?_, ihs⟩
      intro key
      rw [lookupKey, lookupKey, ihl key]
      by_cases h1 : slot.1 = key
      · have : ¬ (k = key) := by rw [← h1]; exact fun hcontra => hslot hcontra.symm
        rw [if_pos h1, if_neg this, if_pos h1]
      · rw [if_neg h1, if_neg h1]

theorem codePass2_eq_inputMajor (cm : Nat → Cred → Bool) :
    ∀ (still : List (String × Nat)), (still.map Prod.fst).Nodup → ∀ (creds : List Cred),
    (∀ key, lookupKey key (codePass2 cm creds still).1
       = lookupKey key (inputMajor cm still creds).1)
    ∧ (codePass2 cm creds still).2 = (inputMajor cm still creds).2 := by
  intro still
  induction still with
  | nil =>
    intro _ creds
    rw [codePass2_nil_still, inputMajor]
    exact ⟨fun key => rfl, rfl⟩
  | cons kv rest ih =>
    obtain ⟨k, sid⟩ := kv
    intro hnd creds
    have hk : k ∉ rest.map Prod.fst := by
      rw [List.map_cons] at hnd
      exact (List.nodup_cons.mp hnd).1
    have hnd' : (rest.map Prod.fst).Nodup := by
      rw [List.map_cons] at hnd
      exact (List.nodup_cons.mp hnd).2
    cases hx : extractFirst (fun c => cm sid c) creds with
    | none =>
      have hall : ∀ c ∈ creds, cm sid c = false := extractFirst_eq_none.mp hx
      rw [codePass2_skip_head cm k sid creds hall rest, inputMajor, hx]
      obtain ⟨ihl, ihs⟩ := ih hnd' creds
      exact ⟨ihl, by rw [ihs]⟩
    | some x =>
      obtain ⟨cstar, creds'⟩ := x
      obtain ⟨pre, post, hcreds, hcreds', hpre, hcstar⟩ := extractFirst_eq_some hx
      subst hcreds
      subst hcreds'
      obtain ⟨bl, bs⟩ := codePass2_assign_head cm k sid cstar hcstar pre hpre post rest hk
      obtain ⟨ihl, ihs⟩ := ih hnd' (pre ++ post)
      rw [inputMajor, hx]
      constructor
      · intro key
        rw [bl key, lookupKey]
        by_cases h1 : k = key
        · rw [if_pos h1, if_pos h1]
        · rw [if_neg h1, if_neg h1, ihl key]
      · rw [bs, ihs]

theorem keyedPass_still_sublist :
    ∀ (needed : List (String × Nat)) (creds : List Cred),
    (keyedPass needed creds).2.1.Sublist needed := by
  intro needed
  induction needed with
  | nil => intro creds; exact List.Sublist.refl []
  | cons kv rest ih =>
    obtain ⟨key, sid⟩ := kv
    intro creds
    rw [keyedPass]
    cases hx : extractFirst (fun c => c.key = some key) creds with
    | none => exact List.Sublist.cons₂ (key, sid) (ih creds)
    | some x => exact List.Sublist.cons (key, sid) (ih x.2)

theorem lookupKey_append_some (key : String) (xs ys : List (String × Cred)) (v : Cred)
    (h : lookupKey key xs = some v) : lookupKey key (xs ++ ys) = some v := by
  induction xs with
  | nil => simp [lookupKey] at h
  | cons kv rest ih =>
    rw [lookupKey] at h
    rw [List.cons_append, lookupKey]
    by_cases h1 : kv.1 = key
    · rw [if_pos h1] at h ⊢; exact h
    · rw [if_neg h1] at h ⊢; exact ih h

theorem lookupKey_append_none (key : String) (xs ys : List (String × Cred))
    (h : lookupKey key xs = none) : lookupKey key (xs ++ ys) = lookupKey key ys := by
  induction xs with
  | nil => rfl
  | cons kv rest ih =>
    rw [lookupKey] at h
    rw [List.cons_append, lookupKey]
    by_cases h1 : kv.1 = key
    · rw [if_pos h1] at h; exact absurd h (by simp)
    · rw [if_neg h1] at h ⊢; exact ih h

/-- C2 (amended): after the keyed pass, each still-unresolved named input
is resolved in input-declaration order by scanning all remaining
credentials (unkeyed ones, and keyed ones whose key was not consumed by
the keyed pass) in array order and taking the first that passes
`matchesSpec`: the credential-major loop of the source computes exactly
this input-major assignment, provided the spec input names are
distinct. -/
theorem pickCredentials_eq_inputMajorPick (cm : Nat → Cred → Bool) (spec : Spec)
    (creds : List Cred)
    (hnd : ((credentialsNeeded spec).map Prod.fst).Nodup) :
    pickCredentials cm spec creds = inputMajorPick cm spec creds := by
  have hsub := keyedPass_still_sublist (credentialsNeeded spec) creds
  have hstillnd : ((keyedPass (credentialsNeeded spec) creds).2.1.map Prod.fst).Nodup :=
    List.Nodup.sublist (List.Sublist.map Prod.fst hsub) hnd
  obtain ⟨heql, heqs⟩ := codePass2_eq_inputMajor cm
    (keyedPass (credentialsNeeded spec) creds).2.1 hstillnd
    (keyedPass (credentialsNeeded spec) creds).2.2
  show (if _ = _ then _ else _) = (if _ = _ then _ else _)
  rw [heqs]
  by_cases hempty :
      (inputMajor cm (keyedPass (credentialsNeeded spec) creds).2.1
        (keyedPass (credentialsNeeded spec) creds).2.2).2 = []
  · rw [if_pos hempty, if_pos hempty]
    congr 1
    apply List.map_congr_left
    intro kv _
    congr 1
    cases hx : lookupKey kv.1 (keyedPass (credentialsNeeded spec) creds).1 with
    | some v =>
      rw [lookupKey_append_some kv.1 _ _ v hx, lookupKey_append_some kv.1 _ _ v hx]
    | none =>
      rw [lookupKey_append_none kv.1 _ _ hx, lookupKey_append_none kv.1 _ _ hx, heql kv.1]
  · rw [if_neg hempty, if_neg hempty]

theorem lookupKey_eq_none (k : String) (l : List (String × Cred)) :
    lookupKey k l = none ↔ k ∉ l.map Prod.fst := by
  induction l with
  | nil => simp [lookupKey]
  | cons kv rest ih =>
    rw [lookupKey]
    by_cases h1 : kv.1 = k
    · simp [h1]
    · rw [if_neg h1]
      simp only [List.map_cons, List.mem_cons]
      rw [ih]
      constructor
      · intro h hcontra
        rcases hcontra with hcontra | hcontra
        · exact h1 hcontra.symm
        · exact h hcontra
      · intro h hcontra
        exact h (Or.inr hcontra)

theorem keyedPass_used_keys :
    ∀ (needed : List (String × Nat)) (creds : List Cred) (k : String),
    k ∈ (keyedPass needed creds).1.map Prod.fst → k ∈ needed.map Prod.fst := by
  intro needed
  induction needed with
  | nil => intro creds k h; simp [keyedPass] at h
  | cons kv rest ih =>
    obtain ⟨key, sid⟩ := kv
    intro creds k h
    rw [keyedPass] at h
    cases hx : extractFirst (fun c => c.key = some key) creds with
    | none =>
      rw [hx] at h
      exact List.mem_cons_of_mem _ (ih creds k h)
    | some x =>
      rw [hx] at h
      rw [List.map_cons] at h
      rcases List.mem_cons.mp h with h | h
      · rw [h]; exact List.mem_cons_self _ _
      · exact List.mem_cons_of_mem _ (ih x.2 k h)

theorem keyedPass_mem_still (needed : List (String × Nat)) (creds : List Cred)
    (hnd : (needed.map Prod.fst).Nodup) (k : String) :
    k ∈ (keyedPass needed creds).2.1.map Prod.fst
      ↔ k ∈ needed.map Prod.fst ∧ lookupKey k (keyedPass needed creds).1 = none := by
  induction needed generalizing creds with
  | nil => simp [keyedPass, lookupKey]
  | cons kv rest ih =>
    obtain ⟨key, sid⟩ := kv
    rw [List.map_cons, List.nodup_cons] at hnd
    obtain ⟨hkey, hnd'⟩ := hnd
    rw [keyedPass]
    cases hx : extractFirst (fun c => c.key = some key) creds with
    | none =>
      simp only [List.map_cons, List.mem_cons]
      rw [ih creds hnd']
      constructor
      · intro h
        rcases h with h | ⟨hmem, hlook⟩
        · subst h
          refine ⟨Or.inl rfl, ?_⟩
          rw [lookupKey_eq_none]
          intro hcontra
          exact hkey (keyedPass_used_keys rest creds k hcontra)
        · exact ⟨Or.inr hmem, hlook⟩
      · intro ⟨h, hlook⟩
        rcases h with h | h
        · exact Or.inl h
        · exact Or.inr ⟨h, hlook⟩
    | some x =>
      simp only [List.map_cons, List.mem_cons]
      rw [ih x.2 hnd']
      rw [lookupKey]
      by_cases h1 : k = key
      · subst h1
        rw [if_pos rfl]
        simp only [and_false, iff_false, reduceCtorEq]
        intro hcontra
        exact hkey hcontra.1
      · rw [if_neg (fun hcontra => h1 hcontra.symm)]
        constructor
        · intro ⟨hmem, hlook⟩
          exact ⟨Or.inr hmem, hlook⟩
        · intro ⟨hmem, hlook⟩
          rcases hmem with hmem | hmem
          · exact absurd hmem h1
          · exact ⟨hmem, hlook⟩

theorem codePass2_used_keys (cm : Nat → Cred → Bool) :
    ∀ (creds : List Cred) (still : List (String × Nat)) (k : String),
    k ∈ (codePass2 cm creds still).1.map Prod.fst → k ∈ still.map Prod.fst := by
  intro creds
  induction creds with
  | nil => intro still k h; simp [codePass2] at h
  | cons c creds ih =>
    intro still k h
    cases still with
    | nil => rw [codePass2_nil_still] at h; simp at h
    | cons kv rest =>
      rw [codePass2] at h
      cases hx : extractFirst (fun s => cm s.2 c) (kv :: rest) with
      | none =>
        rw [hx] at h
        exact ih (kv :: rest) k h
      | some x =>
        obtain ⟨slot, still'⟩ := x
        rw [hx] at h
        obtain ⟨pre2, post2, hstill, hstill', _, _⟩ := extractFirst_eq_some hx
        rw [List.map_cons] at h
        rcases List.mem_cons.mp h with h | h
        · rw [hstill, h, List.map_append, List.map_cons]
          exact List.mem_append.mpr (Or.inr (List.mem_cons_self _ _))
        · have := ih still' k h
          rw [hstill', List.map_append] at this
          rw [hstill, List.map_append, List.map_cons]
          rcases List.mem_append.mp this with h2 | h2
          · exact List.mem_append.mpr (Or.inl h2)
          · exact List.mem_append.mpr (Or.inr (List.mem_cons_of_mem _ h2))

theorem codePass2_mem_still (cm : Nat → Cred → Bool) :
    ∀ (creds : List Cred) (still : List (String × Nat)),
    (still.map Prod.fst).Nodup → ∀ (k : String),
    k ∈ (codePass2 cm creds still).2.map Prod.fst
      ↔ k ∈ still.map Prod.fst ∧ lookupKey k (codePass2 cm creds still).1 = none := by
  intro creds
  induction creds with
  | nil =>
    intro still _ k
    simp [codePass2, lookupKey]
  | cons c creds ih =>
    intro still hnd k
    cases still with
    | nil =>
      rw [codePass2_nil_still]
      simp [lookupKey]
    | cons kv rest =>
      rw [codePass2]
      cases hx : extractFirst (fun s => cm s.2 c) (kv :: rest) with
      | none => exact ih (kv :: rest) hnd k
      | some x =>
        obtain ⟨slot, still'⟩ := x
        obtain ⟨pre2, post2, hstill, hstill', _, _⟩ := extractFirst_eq_some hx
        have hsub : still'.Sublist (kv :: rest) := by
          rw [hstill, hstill']
          exact List.Sublist.append (List.Sublist.refl pre2) (List.Sublist.cons slot (List.Sublist.refl post2))
        have hnd' : (still'.map Prod.fst).Nodup :=
          List.Nodup.sublist (List.Sublist.map Prod.fst hsub) hnd
        have hslotmem : slot.1 ∈ (kv :: rest).map Prod.fst := by
          rw [hstill, List.map_append, List.map_cons]
          exact List.mem_append.mpr (Or.inr (List.mem_cons_self _ _))
        have hslotnotin : slot.1 ∉ still'.map Prod.fst := by
          intro hcontra
          rw [hstill', List.map_append] at hcontra
          rw [hstill, List.map_append, List.map_cons] at hnd
          rcases List.mem_append.mp hcontra with h2 | h2
          · exact (List.disjoint_of_nodup_append hnd) h2 (List.mem_cons_self _ _)
          · have := List.Nodup.of_append_right hnd
            rw [List.nodup_cons] at this
            exact this.1 h2
        rw [ih still' hnd' k, lookupKey]
        by_cases h1 : slot.1 = k
        · subst h1
          rw [if_pos rfl]
          simp only [and_false, iff_false, reduceCtorEq]
          intro hcontra
          exact hslotnotin hcontra.1
        · rw [if_neg h1]
          have hmemiff : k ∈ (kv :: rest).map Prod.fst ↔ k ∈ still'.map Prod.fst := by
            rw [hstill, hstill', List.map_append, List.map_append, List.map_cons]
            constructor
            · intro h2
              rcases List.mem_append.mp h2 with h2 | h2
              · exact List.mem_append.mpr (Or.inl h2)
              · rcases List.mem_cons.mp h2 with h2 | h2
                · exact absurd h2.symm h1
                · exact List.mem_append.mpr (Or.inr h2)
            · intro h2
              rcases List.mem_append.mp h2 with h2 | h2
              · exact List.mem_append.mpr (Or.inl h2)
              · exact List.mem_append.mpr (Or.inr (List.mem_cons_of_mem _ h2))
          rw [hmemiff]

theorem lookupKey_append_eq_none (k : String) (xs ys : List (String × Cred)) :
    lookupKey k (xs ++ ys) = none ↔ lookupKey k xs = none ∧ lookupKey k ys = none := by
  rw [lookupKey_eq_none, lookupKey_eq_none, lookupKey_eq_none, List.map_append]
  simp only [List.mem_append]
  tauto

theorem pickCredentials_missing_iff (cm : Nat → Cred → Bool) (spec : Spec)
    (creds : List Cred) (hnd : ((credentialsNeeded spec).map Prod.fst).Nodup) (k : String) :
    k ∈ (codePass2 cm (keyedPass (credentialsNeeded spec) creds).2.2
          (keyedPass (credentialsNeeded spec) creds).2.1).2.map Prod.fst
      ↔ k ∈ (credentialsNeeded spec).map Prod.fst
        ∧ lookupKey k (assignedCredentials cm spec creds) = none := by
  have hsub := keyedPass_still_sublist (credentialsNeeded spec) creds
  have hstillnd : ((keyedPass (credentialsNeeded spec) creds).2.1.map Prod.fst).Nodup :=
    List.Nodup.sublist (List.Sublist.map Prod.fst hsub) hnd
  rw [codePass2_mem_still cm _ _ hstillnd k,
    keyedPass_mem_still (credentialsNeeded spec) creds hnd k,
    assignedCredentials, lookupKey_append_eq_none]
  tauto

/-- C5: when any named credential input is unresolved after both passes,
`pickCredentials` fails with a missing-credentials error that is nonempty
and names exactly the needed inputs with no assignment; when it succeeds,
the returned assignment covers exactly the needed inputs (unused supplied
credentials are silently ignored) and every needed input is assigned. -/
theorem pickCredentials_error_or_ok (cm : Nat → Cred → Bool) (spec : Spec)
    (creds : List Cred) (hnd : ((credentialsNeeded spec).map Prod.fst).Nodup) :
    (∀ l, pickCredentials cm spec creds = .error l →
      l ≠ [] ∧ ∀ k, k ∈ l ↔ k ∈ (credentialsNeeded spec).map Prod.fst
        ∧ lookupKey k (assignedCredentials cm spec creds) = none)
    ∧ (∀ m, pickCredentials cm spec creds = .ok m →
        m.map Prod.fst = (credentialsNeeded spec).map Prod.fst
        ∧ ∀ k, k ∈ (credentialsNeeded spec).map Prod.fst →
            lookupKey k (assignedCredentials cm spec creds) ≠ none) := by
  by_cases hcond : (codePass2 cm (keyedPass (credentialsNeeded spec) creds).2.2
      (keyedPass (credentialsNeeded spec) creds).2.1).2 = []
  · constructor
    · intro l hl
      rw [pickCredentials] at hl
      rw [if_pos hcond] at hl
      exact absurd hl (by simp)
    · intro m hm
      rw [pickCredentials] at hm
      rw [if_pos hcond] at hm
      have hm' := Except.ok.inj hm
      constructor
      · rw [← hm', List.map_map]
        rfl
      · intro k hk hlook
        have := (pickCredentials_missing_iff cm spec creds hnd k).mpr ⟨hk, hlook⟩
        rw [hcond] at this
        simp at this
  · constructor
    · intro l hl
      rw [pickCredentials] at hl
      rw [if_neg hcond] at hl
      have hl' := Except.error.inj hl
      constructor
      · rw [← hl']
        intro hcontra
        exact hcond (List.map_eq_nil_iff.mp hcontra)
      · intro k
        rw [← hl']
        exact pickCredentials_missing_iff cm spec creds hnd k
    · intro m hm
      rw [pickCredentials] at hm
      rw [if_neg hcond] at hm
      exact absurd hm (by simp)

theorem unique_cred_of_nodup_keys (creds : List Cred)
    (hnd : (creds.filterMap Cred.key).Nodup) (k : String) :
    ∀ c c', c ∈ creds → c.key = some k → c' ∈ creds → c'.key = some k → c = c' := by
  induction creds with
  | nil => intro c c' hc; simp at hc
  | cons a rest ih =>
    intro c c' hc hck hc' hck'
    have hndrest : (rest.filterMap Cred.key).Nodup := by
      cases ha : a.key with
      | none => rw [List.filterMap_cons_none ha] at hnd; exact hnd
      | some v =>
        rw [List.filterMap_cons_some ha] at hnd
        exact (List.nodup_cons.mp hnd).2
    rcases List.mem_cons.mp hc with h1 | h1
    · rcases List.mem_cons.mp hc' with h2 | h2
      · rw [h1, h2]
      · exfalso
        rw [h1] at hck
        rw [List.filterMap_cons_some hck] at hnd
        exact (List.nodup_cons.mp hnd).1 (List.mem_filterMap.mpr ⟨c', h2, hck'⟩)
    · rcases List.mem_cons.mp hc' with h2 | h2
      · exfalso
        rw [h2] at hck'
        rw [List.filterMap_cons_some hck'] at hnd
        exact (List.nodup_cons.mp hnd).1 (List.mem_filterMap.mpr ⟨c, h1, hck⟩)
      · exact ih hndrest c c' h1 hck h2 hck'

theorem extractFirst_key_mem (k : String) (creds : List Cred)
    (hk : k ∈ creds.filterMap Cred.key) :
    ∃ c creds2, extractFirst (fun x => x.key = some k) creds = some (c, creds2)
      ∧ c ∈ creds ∧ c.key = some k := by
  induction creds with
  | nil => simp at hk
  | cons a rest ih =>
    by_cases ha : a.key = some k
    · refine ⟨a, rest, ?_, List.mem_cons_self a rest, ha⟩
      rw [extractFirst, if_pos (by simpa using ha)]
    · have hk2 : k ∈ rest.filterMap Cred.key := by
        rcases List.mem_filterMap.mp hk with ⟨c, hc, hck⟩
        rcases List.mem_cons.mp hc with hc | hc
        · exact absurd (hc ▸ hck) ha
        · exact List.mem_filterMap.mpr ⟨c, hc, hck⟩
      obtain ⟨c, creds2, hex, hc, hck⟩ := ih hk2
      refine ⟨c, a :: creds2, ?_, List.mem_cons_of_mem a hc, hck⟩
      rw [extractFirst, if_neg (by simpa using ha), hex]
      rfl

theorem find_key_eq_some_iff (k : String) (creds : List Cred)
    (hnd : (creds.filterMap Cred.key).Nodup) (c : Cred) :
    creds.find? (fun x => x.key = some k) = some c ↔ c ∈ creds ∧ c.key = some k := by
  constructor
  · intro h
    exact ⟨List.mem_of_find?_eq_some h, by simpa using List.find?_some h⟩
  · intro ⟨hc, hck⟩
    induction creds with
    | nil => simp at hc
    | cons a rest ih =>
      by_cases ha : a.key = some k
      · have : c = a := unique_cred_of_nodup_keys (a :: rest) hnd k c a hc hck
          (List.mem_cons_self a rest) ha
        rw [List.find?_cons_of_pos _ (by simpa using ha), this]
      · have hndrest : (rest.filterMap Cred.key).Nodup := by
          cases hb : a.key with
          | none => rw [List.filterMap_cons_none hb] at hnd; exact hnd
          | some v =>
            rw [List.filterMap_cons_some hb] at hnd
            exact (List.nodup_cons.mp hnd).2
        have hcrest : c ∈ rest := by
          rcases List.mem_cons.mp hc with hc | hc
          · exact absurd (hc ▸ hck) ha
          · exact hc
        rw [List.find?_cons_of_neg _ (by simpa using ha)]
        exact ih hndrest hcrest

theorem keyedPass_covered :
    ∀ (needed : List (String × Nat)) (creds : List Cred),
    (needed.map Prod.fst).Nodup →
    (creds.filterMap Cred.key).Nodup →
    (∀ kv ∈ needed, kv.1 ∈ creds.filterMap Cred.key) →
    (keyedPass needed creds).2.1 = []
    ∧ ∀ k sid c, (k, sid) ∈ needed → c ∈ creds → c.key = some k →
        lookupKey k (keyedPass needed creds).1 = some c := by
  intro needed
  induction needed with
  | nil =>
    intro creds _ _ _
    exact ⟨rfl, by intro k sid c h; simp at h⟩
  | cons kv1 rest ih =>
    obtain ⟨k1, s1⟩ := kv1
    intro creds hndn hndk hcov
    rw [List.map_cons, List.nodup_cons] at hndn
    obtain ⟨hk1notin, hndn'⟩ := hndn
    obtain ⟨cex, creds2, hex, hcexmem, hcexkey⟩ :=
      extractFirst_key_mem k1 creds (hcov (k1, s1) (List.mem_cons_self _ _))
    obtain ⟨pre, post, hcreds, hcreds2, _, _⟩ := extractFirst_eq_some hex
    have hmem2 : ∀ c : Cred, c ∈ creds → c.key ≠ some k1 → c ∈ creds2 := by
      intro c hc hck
      have hcne : c ≠ cex := fun h => hck (h ▸ hcexkey)
      rw [hcreds] at hc
      rw [hcreds2]
      rcases List.mem_append.mp hc with h | h
      · exact List.mem_append.mpr (Or.inl h)
      · rcases List.mem_cons.mp h with h | h
        · exact absurd h hcne
        · exact List.mem_append.mpr (Or.inr h)
    have hndk2 : (creds2.filterMap Cred.key).Nodup := by
      have hsub : creds2.Sublist creds := by
        rw [hcreds, hcreds2]
        exact List.Sublist.append (List.Sublist.refl pre)
          (List.Sublist.cons cex (List.Sublist.refl post))
      exact List.Nodup.sublist (List.Sublist.filterMap Cred.key hsub) hndk
    have hcov2 : ∀ kv ∈ rest, kv.1 ∈ creds2.filterMap Cred.key := by
      intro kv hkv
      have hne : kv.1 ≠ k1 := by
        intro h
        have hmm : kv.1 ∈ rest.map Prod.fst := List.mem_map_of_mem Prod.fst hkv
        rw [h] at hmm
        exact hk1notin hmm
      obtain ⟨c, hc, hck⟩ :=
        List.mem_filterMap.mp (hcov kv (List.mem_cons_of_mem _ hkv))
      refine List.mem_filterMap.mpr ⟨c, hmem2 c hc ?_, hck⟩
      intro h
      rw [h] at hck
      injection hck with h2
      exact hne h2.symm
    obtain ⟨ihstill, ihlook⟩ := ih creds2 hndn' hndk2 hcov2
    constructor
    · rw [keyedPass, hex]
      exact ihstill
    · intro k sid c hkv hc hck
      rw [keyedPass, hex, lookupKey]
      by_cases h1 : k1 = k
      · rw [if_pos h1]
        subst h1
        rw [unique_cred_of_nodup_keys creds hndk k1 c cex hc hck hcexmem hcexkey]
      · rw [if_neg h1]
        have hkvrest : (k, sid) ∈ rest := by
          rcases List.mem_cons.mp hkv with h | h
          · exact absurd (by injection h with h2 _; exact h2.symm) h1
          · exact h
        refine ihlook k sid c hkvrest (hmem2 c hc ?_) hck
        intro h
        rw [h] at hck
        injection hck with h2
        exact h1 h2

theorem pickCredentials_covered_canonical (cm : Nat → Cred → Bool) (spec : Spec)
    (creds : List Cred)
    (hndn : ((credentialsNeeded spec).map Prod.fst).Nodup)
    (hndk : (creds.filterMap Cred.key).Nodup)
    (hcov : ∀ kv ∈ credentialsNeeded spec, kv.1 ∈ creds.filterMap Cred.key) :
    pickCredentials cm spec creds
      = .ok ((credentialsNeeded spec).map fun kv =>
          (kv.1, (creds.find? (fun c => c.key = some kv.1)).getD defaultCred)) := by
  obtain ⟨hstill, hlook⟩ := keyedPass_covered (credentialsNeeded spec) creds hndn hndk hcov
  rw [pickCredentials]
  rw [hstill, codePass2_nil_still]
  rw [if_pos rfl]
  congr 1
  apply List.map_congr_left
  intro kv hkv
  obtain ⟨c, hc, hck⟩ := List.mem_filterMap.mp (hcov kv hkv)
  have h1 : lookupKey kv.1 (keyedPass (credentialsNeeded spec) creds).1 = some c :=
    hlook kv.1 kv.2 c hkv hc hck
  have h2 : creds.find? (fun x => x.key = some kv.1) = some c :=
    (find_key_eq_some_iff kv.1 creds hndk c).mpr ⟨hc, hck⟩
  rw [List.append_nil, h1, h2]

/-- C6 (amended): keyed assignment is order-independent provided every
named credential input occurs among the (distinct) keys of the supplied
credentials: permuted credential lists then yield the same
input-to-credential mapping. -/
theorem pickCredentials_keyed_order_independent (cm : Nat → Cred → Bool) (spec : Spec)
    (creds creds' : List Cred) (hperm : creds.Perm creds')
    (hndn : ((credentialsNeeded spec).map Prod.fst).Nodup)
    (hndk : (creds.filterMap Cred.key).Nodup)
    (hcov : ∀ kv ∈ credentialsNeeded spec, kv.1 ∈ creds.filterMap Cred.key) :
    pickCredentials cm spec creds = pickCredentials cm spec creds' := by
  have hpermf := hperm.filterMap Cred.key
  have hndk' : (creds'.filterMap Cred.key).Nodup := hpermf.nodup_iff.mp hndk
  have hcov' : ∀ kv ∈ credentialsNeeded spec, kv.1 ∈ creds'.filterMap Cred.key :=
    fun kv hkv => hpermf.mem_iff.mp (hcov kv hkv)
  rw [pickCredentials_covered_canonical cm spec creds hndn hndk hcov,
    pickCredentials_covered_canonical cm spec creds' hndn hndk' hcov']
  congr 1
  apply List.map_congr_left
  intro kv hkv
  obtain ⟨c, hc, hck⟩ := List.mem_filterMap.mp (hcov kv hkv)
  rw [(find_key_eq_some_iff kv.1 creds hndk c).mpr ⟨hc, hck⟩,
    (find_key_eq_some_iff kv.1 creds' hndk' c).mpr ⟨hperm.mem_iff.mp hc, hck⟩]

/-- C10: `pickCredentials` operates on a shallow copy of the
caller-supplied credentials array; after any call — success or failure —
every pre-existing array of the store, in particular the caller argument,
holds the same elements in the same order as before, and the result is
that of the pure algorithm on the argument. -/
theorem pickCredentials_frame (cm : Nat → Cred → Bool) (spec : Spec)
    (store : List (List Cred)) (argIdx : Nat) (j : Nat) (h : j < store.length) :
    (pickCredentialsStore cm spec store argIdx).2.getD j [] = store.getD j []
    ∧ (pickCredentialsStore cm spec store argIdx).1
      = pickCredentials cm spec (store.getD argIdx []) := by
  refine ⟨?_, rfl⟩
  show (((store ++ [store.getD argIdx []]).set store.length _).getD j []) = store.getD j []
  have hne : store.length ≠ j := Ne.symm (Nat.ne_of_lt h)
  unfold List.getD
  rw [List.get?_eq_getElem?, List.get?_eq_getElem?, List.getElem?_set_ne hne,
    List.getElem?_append_left h]
  rw [List.get?_eq_getElem?]

/-- C3: `Presentation.verify` fails with `InvalidClaimsError` whenever
the presentation claims differ from the request claims, fails with
`InvalidProofError` whenever the reconstructed proof does not check
against the verification key, and returns the output claim exactly when
both checks pass. -/
theorem verifyPresentation_checks (verifyProof : JsonProof → VerificationKey → Bool)
    (verificationKey : VerificationKey) (request : Request)
    (presentation : Presentation) (walletContext : WalletContext) :
    (presentation.claims ≠ request.claims →
      verifyPresentation verifyProof verificationKey request presentation walletContext
        = .error .invalidClaims)
    ∧ (presentation.claims = request.claims →
      verifyProof (reconstructedProof verificationKey request presentation walletContext)
          verificationKey = false →
      verifyPresentation verifyProof verificationKey request presentation walletContext
        = .error .invalidProof)
    ∧ (∀ out,
      verifyPresentation verifyProof verificationKey request presentation walletContext
          = .ok out
        ↔ presentation.claims = request.claims
          ∧ verifyProof (reconstructedProof verificationKey request presentation walletContext)
              verificationKey = true
          ∧ out = presentation.outputClaim) := by
  refine ⟨?_, ?_, ?_⟩
  · intro hne
    rw [verifyPresentation, if_neg hne]
  · intro heq hfalse
    rw [verifyPresentation, if_pos heq, hfalse]
    rfl
  · intro out
    by_cases heq : presentation.claims = request.claims
    · by_cases hok : verifyProof
          (reconstructedProof verificationKey request presentation walletContext)
          verificationKey = true
      · rw [verifyPresentation, if_pos heq, if_pos hok]
        constructor
        · intro h
          exact ⟨heq, hok, (Except.ok.inj h).symm⟩
        · intro ⟨_, _, h⟩
          rw [h]
      · rw [verifyPresentation, if_pos heq, if_neg hok]
        simp only [reduceCtorEq, false_iff]
        intro ⟨_, h, _⟩
        exact hok h
    · rw [verifyPresentation, if_neg heq]
      simp only [reduceCtorEq, false_iff]
      intro ⟨h, _, _⟩
      exact heq h

/-- C4 (counterexample): for the concrete unsigned credential with data
`[18]`, `Credential.validate` does not succeed: it returns the unknown
credential type error although the authenticity oracle would accept
everything, so validate is not a no-op on unsigned credentials. -/
theorem validate_unsigned_not_noop :
    validateCredential (fun _ _ => .ok ()) (createUnsigned [18]) ≠ .ok ()
    ∧ validateCredential (fun _ _ => .ok ()) (createUnsigned [18])
        = .error "Unknown credential type" := by
  refine ⟨?_, rfl⟩
  intro h
  simp [validateCredential, createUnsigned, knownWitness] at h

/-- C4 (amended): for every unsigned stored credential,
`Credential.validate` fails with "Unknown credential type": the
known-witness check admits only native and imported witnesses, and no
authenticity check is ever run on the unsigned credential. -/
theorem validate_unsigned_rejected (verifyOutsideCircuit : Witness → F → Except String Unit)
    (data : List Nat) :
    validateCredential verifyOutsideCircuit (createUnsigned data)
      = .error "Unknown credential type" := rfl

theorem node_roundtrip : ∀ n : CNode, deserializeNode (serializeNode n) = some n := by
  intro n
  induction n with
  | constant v => rfl
  | lessThan l r ihl ihr =>
    rw [serializeNode, deserializeNode, ihl, ihr]
    rfl
  | lessThanEq l r ihl ihr =>
    rw [serializeNode, deserializeNode, ihl, ihr]
    rfl
  | and l r ihl ihr =>
    rw [serializeNode, deserializeNode, ihl, ihr]
    rfl

theorem input_roundtrip : ∀ i : InputKind, deserializeInput (serializeInput i) = some i := by
  intro i
  cases i <;> rfl

theorem spec_inputs_roundtrip (inputs : List (String × InputKind)) :
    (inputs.map fun kv => (kv.1, serializeInput kv.2)).mapM
      (fun kv => (deserializeInput kv.2).map fun input => (kv.1, input))
      = some inputs := by
  induction inputs with
  | nil => rfl
  | cons kv rest ih =>
    rw [List.map_cons, List.mapM_cons, input_roundtrip]
    rw [ih]
    rfl

theorem spec_roundtrip (spec : Spec) : deserializeSpec (serializeSpec spec) = some spec := by
  rw [serializeSpec, deserializeSpec]
  rw [spec_inputs_roundtrip spec.inputs]
  rw [node_roundtrip spec.assertNode, node_roundtrip spec.outputClaim]
  rfl

theorem claims_roundtrip (claims : Claims) :
    deserializeClaims (serializeClaims claims) = some claims := by
  show List.mapM _ (List.map _ claims) = some claims
  induction claims with
  | nil => rfl
  | cons kv rest ih =>
    rw [List.map_cons, List.mapM_cons]
    rw [ih]
    rfl

/-- C7: `fromJSON(toJSON(request))` reproduces the type, spec, claims
and input context of the original request for each of the three request
types, with the ephemeral `serverNonce` preserved verbatim. -/
theorem request_roundtrip (spec : Spec) (claims : Claims) :
    (∀ action serverNonce, ∃ r,
      requestFromJson (requestToJSON (PresentationRequest.https spec claims action serverNonce))
        = some r
      ∧ r.rtype = "https" ∧ r.spec = spec ∧ r.claims = claims
      ∧ r.inputContext = .https action serverNonce)
    ∧ (∀ action serverNonce verifierIdentity, ∃ r,
      requestFromJson (requestToJSON
          (ZkAppRequest spec claims (.zkApp action serverNonce verifierIdentity)))
        = some r
      ∧ r.rtype = "zk-app" ∧ r.spec = spec ∧ r.claims = claims
      ∧ r.inputContext = .zkApp action serverNonce verifierIdentity)
    ∧ (∃ r,
      requestFromJson (requestToJSON (PresentationRequest.noContext spec claims)) = some r
      ∧ r.rtype = "no-context" ∧ r.spec = spec ∧ r.claims = claims
      ∧ r.inputContext = .none) := by
  refine ⟨?_, ?_, ?_⟩
  · intro action serverNonce
    refine ⟨HttpsRequest spec claims (.https action serverNonce), ?_, rfl, rfl, rfl, rfl⟩
    rw [requestToJSON, requestFromJson]
    simp only [spec_roundtrip, claims_roundtrip, Option.bind_some]
    rfl
  · intro action serverNonce verifierIdentity
    refine ⟨ZkAppRequest spec claims (.zkApp action serverNonce verifierIdentity),
      ?_, rfl, rfl, rfl, rfl⟩
    rw [requestToJSON, requestFromJson]
    simp only [spec_roundtrip, claims_roundtrip, Option.bind_some]
    rfl
  · refine ⟨PresentationRequest.noContext spec claims, ?_, rfl, rfl, rfl, rfl⟩
    rw [requestToJSON, requestFromJson]
    simp only [spec_roundtrip, claims_roundtrip, Option.bind_some]
    rfl

/- ------------------------------------------------------------------ -/
/- C1, C9: context derivation theorems                                -/
/- ------------------------------------------------------------------ -/

/-- C1: for every https presentation request, the derived context
commitment equals
`H("context", requestTypeTag, vkHash, nonce, H(verifierIdentity),
H(action), claimsHash)` with `nonce = H("nonce", serverNonce,
clientNonce)` and `claimsHash = H(canonical-field-encoding(claims))`,
and the sub-hashes of the derivation live in pairwise distinct hash
domains (the context prefix, the nonce prefix, the string-hash domain and
the plain claims hash never produce equal values on any arguments). -/
theorem https_context_commitment
    (spec : Spec) (claims : Claims) (action : String) (serverNonce : F)
    (verifierIdentity : String) (vkHash clientNonce : F) :
    (let r := PresentationRequest.https spec claims action serverNonce
     r.deriveContext r.inputContext (.https verifierIdentity)
       { vkHash := vkHash, claims := hashClaims claims, clientNonce := clientNonce })
      = F.hashPrefixed prefixes.context
          [hashString "https", vkHash,
           F.hashPrefixed prefixes.nonce [serverNonce, clientNonce],
           hashString verifierIdentity, hashString action,
           F.hashFields (claimsToFields claims)]
    ∧ prefixes.context ≠ prefixes.nonce
    ∧ (∀ a b, F.hashPrefixed prefixes.context a ≠ F.hashPrefixed prefixes.nonce b)
    ∧ (∀ d a s, F.hashPrefixed d a ≠ hashString s)
    ∧ (∀ d a ns, F.hashPrefixed d a ≠ F.hashFields ns)
    ∧ (∀ s ns, hashString s ≠ F.hashFields ns) := by
  refine ⟨rfl, by decide, ?_, ?_, ?_, ?_⟩
  · intro a b h
    rw [F.hashPrefixed.injEq] at h
    exact absurd h.1 (by decide)
  · intro d a s h
    simp [hashString] at h
  · intro d a ns h
    simp at h
  · intro s ns h
    simp [hashString] at h

/-- C9: a request built by `PresentationRequest.noContext` derives the
constant context `Field(0)`, regardless of input context, wallet context,
client nonce, verification key hash or claims; its input context is
empty. -/
theorem noContext_derives_zero (spec : Spec) (claims : Claims)
    (ic : InputContext) (wc : WalletContext) (dc : WalletDerivedContext) :
    (PresentationRequest.noContext spec claims).deriveContext ic wc dc = F.lit 0
    ∧ (PresentationRequest.noContext spec claims).inputContext = .none :=
  ⟨rfl, rfl⟩

/- ------------------------------------------------------------------ -/
/- C8: numeric comparison promotion                                   -/
/- ------------------------------------------------------------------ -/

/-- C8: evaluating a `lessThan` or `lessThanEq` node on numeric operands
dispatches to `compareNodes`, which promotes the narrower operand to the
widest of the two classes in the fixed total order
`UInt8 < UInt32 < UInt64 < Field`, preserves both numeric values, leaves
operands of equal class unconverted, and returns the Bool of comparing
the converted operands. -/
theorem lessThan_promotes_to_widest (n1 n2 : CNode) (a b : NumValue)
    (h1 : evalNode n1 = some (.num a)) (h2 : evalNode n2 = some (.num b)) :
    evalNode (.lessThan n1 n2) = some (.bool (compareValues a b false))
    ∧ evalNode (.lessThanEq n1 n2) = some (.bool (compareValues a b true))
    ∧ (convertLeft a b).tyIdx = max a.tyIdx b.tyIdx
    ∧ (convertRight a b).tyIdx = max a.tyIdx b.tyIdx
    ∧ (convertLeft a b).val = a.val
    ∧ (convertRight a b).val = b.val
    ∧ (a.tyIdx = b.tyIdx → convertLeft a b = a ∧ convertRight a b = b)
    ∧ (∀ allowEqual, compareValues a b allowEqual
        = if allowEqual then decide ((convertLeft a b).val ≤ (convertRight a b).val)
          else decide ((convertLeft a b).val < (convertRight a b).val)) := by
  refine ⟨by simp [evalNode, h1, h2], by simp [evalNode, h1, h2], ?_, ?_, ?_, ?_, ?_, ?_⟩
  · cases a <;> cases b <;> simp [convertLeft, convertRight, NumValue.tyIdx, NumValue.val]
  · cases a <;> cases b <;> simp [convertLeft, convertRight, NumValue.tyIdx, NumValue.val]
  · cases a <;> cases b <;> simp [convertLeft, convertRight, NumValue.tyIdx, NumValue.val]
  · cases a <;> cases b <;> simp [convertLeft, convertRight, NumValue.tyIdx, NumValue.val]
  · cases a <;> cases b <;> simp [convertLeft, convertRight, NumValue.tyIdx, NumValue.val]
  · intro allowEqual
    cases allowEqual <;> simp [compareValues]

/-- Witness for `lessThan_promotes_to_widest` at the concrete operands
`UInt8 5` and `UInt64 7`. -/
theorem lessThan_promotes_to_widest_witness :
    evalNode (.lessThan (.constant (.num (.u8 5))) (.constant (.num (.u64 7))))
      = some (.bool (compareValues (.u8 5) (.u64 7) false))
    ∧ evalNode (.lessThanEq (.constant (.num (.u8 5))) (.constant (.num (.u64 7))))
      = some (.bool (compareValues (.u8 5) (.u64 7) true))
    ∧ (convertLeft (.u8 5) (.u64 7)).tyIdx = max (NumValue.u8 5).tyIdx (NumValue.u64 7).tyIdx
    ∧ (convertRight (.u8 5) (.u64 7)).tyIdx = max (NumValue.u8 5).tyIdx (NumValue.u64 7).tyIdx
    ∧ (convertLeft (.u8 5) (.u64 7)).val = (NumValue.u8 5).val
    ∧ (convertRight (.u8 5) (.u64 7)).val = (NumValue.u64 7).val
    ∧ ((NumValue.u8 5).tyIdx = (NumValue.u64 7).tyIdx →
        convertLeft (.u8 5) (.u64 7) = .u8 5 ∧ convertRight (.u8 5) (.u64 7) = .u64 7)
    ∧ (∀ allowEqual, compareValues (.u8 5) (.u64 7) allowEqual
        = if allowEqual
          then decide ((convertLeft (.u8 5) (.u64 7)).val ≤ (convertRight (.u8 5) (.u64 7)).val)
          else decide ((convertLeft (.u8 5) (.u64 7)).val < (convertRight (.u8 5) (.u64 7)).val)) :=
  lessThan_promotes_to_widest _ _ _ _ rfl rfl

/-- C2 (counterexample): with one credential input `a` and the supplied
credentials `[{key: "z", id: 1}, {id: 2}]`, both matching, the source
assigns the leftover keyed credential (first in array order), while the
algorithm described by the claim scans only the unkeyed credentials and
assigns the second; the two disagree. -/
theorem claimDescribedPick_counterexample :
    pickCredentials matchAll exSpecOne [{ key := some "z", id := 1 }, { key := none, id := 2 }]
      = .ok [("a", { key := some "z", id := 1 })]
    ∧ claimDescribedPick matchAll exSpecOne
        [{ key := some "z", id := 1 }, { key := none, id := 2 }]
      = .ok [("a", { key := none, id := 2 })]
    ∧ pickCredentials matchAll exSpecOne [{ key := some "z", id := 1 }, { key := none, id := 2 }]
      ≠ claimDescribedPick matchAll exSpecOne
          [{ key := some "z", id := 1 }, { key := none, id := 2 }] :=
  ⟨by decide, by decide, by decide⟩

/-- Witness for `pickCredentials_eq_inputMajorPick`: one credential input,
two unkeyed candidates of which only the second matches; the source and
the input-major description agree and select the second candidate. -/
theorem pickCredentials_eq_inputMajorPick_witness :
    ((credentialsNeeded exSpecOne).map Prod.fst).Nodup
    ∧ pickCredentials matchSecond exSpecOne [{ key := none, id := 1 }, { key := none, id := 2 }]
        = inputMajorPick matchSecond exSpecOne [{ key := none, id := 1 }, { key := none, id := 2 }]
    ∧ pickCredentials matchSecond exSpecOne [{ key := none, id := 1 }, { key := none, id := 2 }]
        = .ok [("a", { key := none, id := 2 })] :=
  ⟨by decide,
    pickCredentials_eq_inputMajorPick matchSecond exSpecOne
      [{ key := none, id := 1 }, { key := none, id := 2 }] (by decide),
    by decide⟩

/-- Witness for `pickCredentials_error_or_ok`: with inputs `a` and `b`
and a single unkeyed credential, input `b` stays unresolved, the error
names exactly it, and the characterization holds at `b`. -/
theorem pickCredentials_error_or_ok_witness :
    pickCredentials matchAll exSpecTwo [{ key := none, id := 1 }] = .error ["b"]
    ∧ ("b" ∈ ["b"] ↔ "b" ∈ (credentialsNeeded exSpecTwo).map Prod.fst
        ∧ lookupKey "b" (assignedCredentials matchAll exSpecTwo [{ key := none, id := 1 }])
            = none) :=
  ⟨by decide,
    ((pickCredentials_error_or_ok matchAll exSpecTwo [{ key := none, id := 1 }]
      (by decide)).1 ["b"] (by decide)).2 "b"⟩

/-- C6 (counterexample): the credential lists `[{key: "x"}, {key: "y"}]`
and `[{key: "y"}, {key: "x"}]` are permutations of each other with
distinct keys, yet against a spec with one input `a` (matched by both)
the resulting mappings differ, because neither key names an input and
both credentials fall through to the order-dependent unkeyed pass. -/
theorem keyed_order_counterexample :
    ([{ key := some "x", id := 1 }, { key := some "y", id := 2 }] : List Cred).Perm
        [{ key := some "y", id := 2 }, { key := some "x", id := 1 }]
    ∧ (([{ key := some "x", id := 1 }, { key := some "y", id := 2 }] : List Cred).filterMap
        Cred.key).Nodup
    ∧ pickCredentials matchAll exSpecOne
        [{ key := some "x", id := 1 }, { key := some "y", id := 2 }]
      ≠ pickCredentials matchAll exSpecOne
          [{ key := some "y", id := 2 }, { key := some "x", id := 1 }] :=
  ⟨List.Perm.swap _ _ _, by decide, by decide⟩

/-- Witness for `pickCredentials_keyed_order_independent` at the example
of the claim: `[{c2, key: b}, {c1, key: a}]` and `[{c1, key: a},
{c2, key: b}]` both yield the mapping `{a: c1, b: c2}`. -/
theorem keyed_order_independent_witness :
    pickCredentials matchAll exSpecTwo
        [{ key := some "b", id := 2 }, { key := some "a", id := 1 }]
      = pickCredentials matchAll exSpecTwo
          [{ key := some "a", id := 1 }, { key := some "b", id := 2 }]
    ∧ pickCredentials matchAll exSpecTwo
        [{ key := some "a", id := 1 }, { key := some "b", id := 2 }]
      = .ok [("a", { key := some "a", id := 1 }), ("b", { key := some "b", id := 2 })] :=
  ⟨pickCredentials_keyed_order_independent matchAll exSpecTwo
      [{ key := some "b", id := 2 }, { key := some "a", id := 1 }]
      [{ key := some "a", id := 1 }, { key := some "b", id := 2 }]
      (List.Perm.swap _ _ _) (by decide) (by decide) (by decide),
    by decide⟩

/-- Witness for `pickCredentials_frame`: a store holding one caller array
with one credential; after the call the caller slot is unchanged. -/
theorem pickCredentials_frame_witness :
    (pickCredentialsStore matchAll exSpecOne [[{ key := none, id := 1 }]] 0).2.getD 0 []
      = [[({ key := none, id := 1 } : Cred)]].getD 0 []
    ∧ (pickCredentialsStore matchAll exSpecOne [[{ key := none, id := 1 }]] 0).1
      = pickCredentials matchAll exSpecOne ([[({ key := none, id := 1 } : Cred)]].getD 0 []) :=
  pickCredentials_frame matchAll exSpecOne [[{ key := none, id := 1 }]] 0 0 (by decide)

/-- Witness for `verifyPresentation_checks`: a concrete presentation whose
claims differ from the request claims is rejected with the claims
error. -/
theorem verifyPresentation_checks_witness :
    verifyPresentation (fun _ _ => true) { data := "vk", hash := F.lit 7 }
        (PresentationRequest.noContext exSpecOne exClaimsOne)
        { version := "v0", claims := exClaimsTwo, outputClaim := [5], serverNonce := F.lit 0
          clientNonce := F.lit 1, proof := { proofB64 := "p", maxProofsVerified := 0 } }
        .none
      = .error .invalidClaims :=
  (verifyPresentation_checks (fun _ _ => true) { data := "vk", hash := F.lit 7 }
      (PresentationRequest.noContext exSpecOne exClaimsOne)
      { version := "v0", claims := exClaimsTwo, outputClaim := [5], serverNonce := F.lit 0
        clientNonce := F.lit 1, proof := { proofB64 := "p", maxProofsVerified := 0 } }
      .none).1 (by decide)
